import Mathlib

/-!
Verification development for the playkit ad-break scheduler (`src/ads/ads-controller.js`)
and its event binding registry (`EventManager`). The JavaScript is embedded shallowly:
positions and playback times are `Int`, listeners and targets are opaque `Nat` ids,
mutation becomes explicit state passing, and promise sequencing in the ended handler
becomes an explicit ordered action trace.
-/

namespace Playkit

/-! ## Binding registry: `EventManager` and its bindings.

A `Binding_` holds a target, an event type and a listener; its constructor attaches the
listener (`addEventListener`) and `unlisten` detaches it once (`removeEventListener`),
guarded by the nulled-out `target`. We record each actual detach call in `detachLog`,
and model the nulled `target` test as membership of the binding id in that log (the
target is nulled exactly when `removeEventListener` ran). Every created binding gets a
fresh id `nextId`, so the set of ever-attached listeners is the ids below `nextId`. -/

structure EMBinding where
  bid : Nat
  target : Nat
  etype : String
  listener : Nat
deriving DecidableEq, Repr

/-- State of one `EventManager` together with the log of detach calls made on the host.
`bmap` is the `MultiMap` flattened: the list for a key `t` is `bmap.filter (etype = t)`,
which preserves per-type insertion order. Modelled from the spec: `MultiMap` itself is
not among the provided sources; per the spec the registry owns "a mapping from
event-type to an ordered sequence of Bindings" and never errors, so `get` on an absent
key yields the empty sequence and `remove` deletes the given binding from its key. -/
structure EMState where
  nextId : Nat
  bmap : List EMBinding
  detachLog : List Nat
deriving DecidableEq, Repr

def initEM : EMState := ⟨0, [], []⟩

/-- `Binding_.unlisten`: does nothing if the target was already nulled out (the binding
was detached before); otherwise calls `removeEventListener` (recorded in `detachLog`)
and nulls the references. -/
def bindingUnlisten (s : EMState) (b : EMBinding) : EMState :=
  if b.bid ∈ s.detachLog then s
  else { s with detachLog := s.detachLog ++ [b.bid] }

/-- `EventManager.listen`: constructs a `Binding_` (whose constructor attaches the
listener) and pushes it onto the type's list. -/
def EMState.listen (s : EMState) (target : Nat) (etype : String) (listener : Nat) : EMState :=
  { s with
    nextId := s.nextId + 1,
    bmap := s.bmap ++ [⟨s.nextId, target, etype, listener⟩] }

/-- The `for` loop body of `EventManager.unlisten`: iterate over the snapshot list
returned by `MultiMap.get`, detaching and removing each binding whose target matches. -/
def unlistenLoop (target : Nat) : List EMBinding → EMState → EMState
  | [], s => s
  | b :: bs, s =>
    if b.target = target then
      let s1 := bindingUnlisten s b
      unlistenLoop target bs { s1 with bmap := s1.bmap.filter (fun c => !(c == b)) }
    else unlistenLoop target bs s

/-- `EventManager.unlisten`: detach and remove every binding matching target and type. -/
def EMState.unlisten (s : EMState) (target : Nat) (etype : String) : EMState :=
  unlistenLoop target (s.bmap.filter (fun b => b.etype == etype)) s

/-- `EventManager.removeAll`: `getAll` the bindings, `unlisten` each, then `clear`. -/
def EMState.removeAll (s : EMState) : EMState :=
  { List.foldl bindingUnlisten s s.bmap with bmap := [] }

/-- A client-visible operation on the registry. -/
inductive EMOp where
  | listen (target : Nat) (etype : String) (listener : Nat)
  | unlisten (target : Nat) (etype : String)
deriving DecidableEq, Repr

def EMState.applyOp (s : EMState) : EMOp → EMState
  | .listen t e l => s.listen t e l
  | .unlisten t e => s.unlisten t e

/-- The registry state after an arbitrary sequence of `listen`/`unlisten` calls. -/
def runEM (ops : List EMOp) : EMState := ops.foldl EMState.applyOp initEM

/-- Well-formedness of a registry state: ids in the map are distinct, actual detach
calls are distinct, every binding held in the map is still attached, and every id ever
handed out is accounted for either in the map or in the detach log. -/
def EMInv (s : EMState) : Prop :=
  (s.bmap.map (·.bid)).Nodup ∧
  s.detachLog.Nodup ∧
  (∀ b ∈ s.bmap, b.bid ∉ s.detachLog) ∧
  (∀ b ∈ s.bmap, b.bid < s.nextId) ∧
  (∀ i ∈ s.detachLog, i < s.nextId) ∧
  (∀ i, i < s.nextId → (∃ b ∈ s.bmap, b.bid = i) ∨ i ∈ s.detachLog)

instance (s : EMState) : Decidable (EMInv s) := by
  unfold EMInv; infer_instance

/-! ## Ad scheduler: `AdsController`. -/

/-- An ads plugin controller as the scheduler sees it (`IAdsPluginController`). -/
structure Ctrl where
  cname : String
  done : Bool
  active : Bool
deriving DecidableEq, Repr

/-- `AdsController._isBumper`. -/
def isBumper (c : Ctrl) : Bool := c.cname == "bumper"

/-- One raw entry of `config.advertising.adBreaks`: a possibly non-numeric `position`
(`none` models a value whose `typeof` is not `'number'`) and the length of `ads`. -/
structure RawBreak where
  position : Option Int
  numAds : Nat
deriving DecidableEq, Repr

/-- A `RunTimeAdBreakObject`: a configured ad break with its mutable `played` flag.
`idx` models JavaScript object identity (each configured break is a distinct object). -/
structure CfgBreak where
  idx : Nat
  position : Int
  numAds : Nat
  played : Bool
deriving DecidableEq, Repr

/-- The mutable fields of `AdsController`. The runtime `_adBreak`/`_ad` payloads are
opaque, so only their presence is tracked. -/
structure AdsState where
  allAdsCompleted : Bool
  adBreaksLayout : List Int
  adBreakActive : Bool
  adActive : Bool
  adPlayed : Bool
  snapback : Int
  configAdBreaks : List CfgBreak
  adIsLoading : Bool
deriving DecidableEq, Repr

/-- The environment the scheduler reads: the registered plugin controllers and the
player configuration (`advertising.adBreaks`, `advertising.playAdsAfterTime`,
`playback.startTime`). -/
structure Env where
  controllers : List Ctrl
  rawBreaks : List RawBreak
  playAdsAfterTime : Option Int
  startTime : Int
deriving Repr

def Env.hasBumper (env : Env) : Bool := env.controllers.any isBumper

def Env.hasPrimary (env : Env) : Bool := env.controllers.any (fun c => !(isBumper c))

/-- Which controller role an `onPlaybackEnded` call is addressed to. -/
inductive Role where
  | bumper
  | primary
deriving DecidableEq, Repr

/-- Outward-visible actions of the scheduler, in the order they happen. `playBreak` is
the `adController.playAdNow(adBreak.ads)` call of `_playAdBreak`; `requestEnded` and
`endedResolved` delimit a controller's `onPlaybackEnded()` promise. -/
inductive Action where
  | playBreak (pos : Int)
  | emitManifest (ps : List Int)
  | emitAllAdsCompleted
  | requestEnded (r : Role)
  | endedResolved (r : Role)
deriving DecidableEq, Repr

/-- `_initMembers` (it does not touch `_configAdBreaks`). -/
def initMembers (s : AdsState) : AdsState :=
  { s with
    allAdsCompleted := true, adBreaksLayout := [], adBreakActive := false,
    adActive := false, adPlayed := false, snapback := 0, adIsLoading := false }

/-- A default state used to seed construction. -/
def initialAdsState : AdsState :=
  { allAdsCompleted := true, adBreaksLayout := [], adBreakActive := false,
    adActive := false, adPlayed := false, snapback := 0, configAdBreaks := [],
    adIsLoading := false }

/-- Insertion into a list sorted by the boolean comparator `le` (stable). -/
def orderedInsertB (le : α → α → Bool) (a : α) : List α → List α
  | [] => [a]
  | b :: l => if le a b then a :: b :: l else b :: orderedInsertB le a l

/-- Stable sort by a boolean comparator; the meaning of `Array.prototype.sort` with a
consistent comparator. -/
def insertionSortB (le : α → α → Bool) : List α → List α
  | [] => []
  | a :: l => orderedInsertB le a (insertionSortB le l)

/-- Lexicographic comparison of character sequences by code point, the order
JavaScript's `<` uses on strings (code points and UTF-16 units agree on ASCII). -/
def codeUnitsLt : List Char → List Char → Bool
  | [], [] => false
  | [], _ :: _ => true
  | _ :: _, [] => false
  | a :: as, b :: bs => if a < b then true else if b < a then false else codeUnitsLt as bs

def jsStrLt (a b : String) : Bool := codeUnitsLt a.data b.data

/-- The key the comparator-less `Array.prototype.sort` compares: `ToString` of the
number (for integers JavaScript prints them the same way). -/
def jsKey (i : Int) : String := toString i

/-- The comparator-less JavaScript `Array.prototype.sort` on numbers: stable sort in
ascending order of the elements' string forms. -/
def jsSortDefault (l : List Int) : List Int :=
  insertionSortB (fun a b => !(jsStrLt (jsKey b) (jsKey a))) l

/-- `Array.from(new Set(xs))`: deduplication keeping first occurrences. -/
def firstDedupAux (seen : List Int) : List Int → List Int
  | [] => []
  | a :: l => if a ∈ seen then firstDedupAux seen l else a :: firstDedupAux (seen ++ [a]) l

def firstDedup (l : List Int) : List Int := firstDedupAux [] l

/-- `JavaScript Array.prototype.findIndex`, as an optional index. -/
def jsFindIndex (p : α → Bool) : List α → Option Nat
  | [] => none
  | a :: l => if p a then some 0 else (jsFindIndex p l).map (· + 1)

/-- Index assignment modelling object identity of the configured breaks. -/
def assignIdx : Nat → List CfgBreak → List CfgBreak
  | _, [] => []
  | i, b :: bs => { b with idx := i } :: assignIdx (i + 1) bs

/-- The `||` in `playAdsAfterTime || startTime`: `0` and `undefined` are falsy. -/
def effectiveAfterTime (p : Option Int) (startTime : Int) : Int :=
  match p with
  | some v => if v == 0 then startTime else v
  | none => startTime

/-- The configured-break ingestion of `_handleConfiguredAdBreaks`: keep entries with a
numeric position and a nonempty ads list, pre-compute `played` as
`-1 < position && position <= playAdsAfterTime`, and sort ascending by position. -/
def mkCfgBreaks (T : Int) (raw : List RawBreak) : List CfgBreak :=
  let filtered := raw.filter (fun b => b.position.isSome && !(b.numAds == 0))
  let mapped := filtered.map (fun b =>
    { idx := 0, position := b.position.getD 0, numAds := b.numAds,
      played := decide (-1 < b.position.getD 0) && decide (b.position.getD 0 ≤ T) : CfgBreak })
  assignIdx 0 (insertionSortB (fun a b => decide (a.position ≤ b.position)) mapped)

/-- `_playAdBreak`: with a non-bumper controller registered, mark the break played, set
`_adIsLoading`, and command the controller to play the break's ads; otherwise warn and
do nothing. -/
def playAdBreak (hasPrimary : Bool) (b : CfgBreak) (s : AdsState) : AdsState × List Action :=
  if hasPrimary then
    ({ s with
        configAdBreaks := s.configAdBreaks.map
          (fun c => if c.idx == b.idx then { c with played := true } else c),
        adIsLoading := true },
     [Action.playBreak b.position])
  else (s, [])

/-- `_onAdManifestLoaded`: merge the reported positions into the layout
(`Array.from(new Set(...)).sort()` — note the comparator-less sort), and clear
`_allAdsCompleted`. -/
def onAdManifestLoaded (ps : List Int) (s : AdsState) : AdsState :=
  { s with
    adBreaksLayout := jsSortDefault (firstDedup (s.adBreaksLayout ++ ps)),
    allAdsCompleted := false }

/-- `getAdBreaksLayout`. -/
def getAdBreaksLayout (s : AdsState) : List Int := s.adBreaksLayout

/-- `_handleConfiguredPreroll`: dispatch the unplayed break at position `0`, if any. -/
def handleConfiguredPreroll (hasPrimary : Bool) (s : AdsState) : AdsState × List Action :=
  match s.configAdBreaks.find? (fun b => b.position == 0 && !b.played) with
  | some b => playAdBreak hasPrimary b s
  | none => (s, [])

/-- The `TIME_UPDATE` handler of `_handleConfiguredMidrolls`: while not paused, filter
the unplayed breaks due at the (truthy) current time beyond `_snapback`, and if any,
set `_snapback` to the last one's position and dispatch it. -/
def onTimeUpdate (hasPrimary paused : Bool) (t : Int) (s : AdsState) : AdsState × List Action :=
  if paused then (s, [])
  else
    match (s.configAdBreaks.filter
      (fun b => !b.played && !(t == 0) && decide (b.position ≤ t)
        && decide (s.snapback < b.position))).getLast? with
    | some lastB => playAdBreak hasPrimary lastB { s with snapback := lastB.position }
    | none => (s, [])

/-- The `SEEKED` handler of `_handleConfiguredMidrolls`: find the first played break
past the new current time; if it exists, is not first, and its predecessor is not
played, reset `_snapback` to `0`. -/
def onSeeked (t : Int) (s : AdsState) : AdsState :=
  match jsFindIndex (fun b => b.played && decide (t < b.position)) s.configAdBreaks with
  | some i =>
    if 0 < i then
      match s.configAdBreaks.get? (i - 1) with
      | some prev => if prev.played then s else { s with snapback := 0 }
      | none => s
    else s
  | none => s

/-- `_onAdsCompleted`: if every controller is done and every configured break played,
set `_allAdsCompleted` and emit `ALL_ADS_COMPLETED`. -/
def onAdsCompleted (ctrls : List Ctrl) (s : AdsState) : AdsState × List Action :=
  if ctrls.all (·.done) && s.configAdBreaks.all (·.played) then
    ({ s with allAdsCompleted := true }, [Action.emitAllAdsCompleted])
  else (s, [])

/-- `_onAdError`: clear `_adIsLoading`; on a critical error with every controller done
and every break played, set `_allAdsCompleted` and, if an ad ever played, emit. -/
def onAdError (ctrls : List Ctrl) (critical : Bool) (s : AdsState) : AdsState × List Action :=
  let s1 := { s with adIsLoading := false }
  if critical && ctrls.all (·.done) && s1.configAdBreaks.all (·.played) then
    let s2 := { s1 with allAdsCompleted := true }
    if s2.adPlayed then (s2, [Action.emitAllAdsCompleted]) else (s2, [])
  else (s1, [])

/-- `_handleConfiguredPostroll`: if an unplayed break at position `-1` exists, mark
every configured break played and dispatch the postroll break. -/
def handleConfiguredPostroll (hasPrimary : Bool) (s : AdsState) : AdsState × List Action :=
  match s.configAdBreaks.find? (fun b => !b.played && b.position == -1) with
  | some b =>
    playAdBreak hasPrimary b
      { s with configAdBreaks := s.configAdBreaks.map (fun c => { c with played := true }) }
  | none => (s, [])

/-- `_onEnded`: nothing while an ad is loading; with no `-1` in the layout, set
`_allAdsCompleted`; otherwise await the bumper's `onPlaybackEnded` (a missing bumper is
an already-resolved promise), then the primary's, then run the postroll handler — the
promise chaining is rendered as the ordered action trace. A missing primary controller
short-circuits the `adCtrl && ...` chain, so the postroll handler never runs. -/
def onEnded (env : Env) (s : AdsState) : AdsState × List Action :=
  if s.adIsLoading then (s, [])
  else if !(s.adBreaksLayout.contains (-1)) then ({ s with allAdsCompleted := true }, [])
  else
    let bumperTrace :=
      if env.hasBumper then [Action.requestEnded Role.bumper, Action.endedResolved Role.bumper]
      else []
    if env.hasPrimary then
      let pr := handleConfiguredPostroll env.hasPrimary s
      (pr.1,
       bumperTrace ++ Action.requestEnded Role.primary :: Action.endedResolved Role.primary :: pr.2)
    else (s, bumperTrace)

/-- The scheduler together with its binding flags: `endedArmed` models the one-shot
`listenOnce(ENDED)` subscription, `midrollBound` whether `_handleConfiguredMidrolls`
registered its `TIME_UPDATE`/`SEEKED` listeners. Modelled from the spec:
`EventManager.listenOnce` is not among the provided sources; it is modelled as a
subscription that is removed when its first event is delivered. -/
structure MState where
  ads : AdsState
  endedArmed : Bool
  midrollBound : Bool
deriving DecidableEq, Repr

/-- `_init` = `_initMembers`, `_addBindings`, `_handleConfiguredAdBreaks`: ingest the
configured breaks; if any, dispatch `AD_MANIFEST_LOADED` on the player (delivered
synchronously back to `_onAdManifestLoaded`), then handle the preroll if position `0`
is present, and register midroll monitoring if some position is `> 0`. -/
def initAds (env : Env) (s0 : AdsState) : AdsState × List Action :=
  let T := effectiveAfterTime env.playAdsAfterTime env.startTime
  let s := { initMembers s0 with configAdBreaks := mkCfgBreaks T env.rawBreaks }
  if s.configAdBreaks.isEmpty then (s, [])
  else
    let positions := s.configAdBreaks.map (·.position)
    let s1 := onAdManifestLoaded positions s
    let pre :=
      if positions.contains 0 then handleConfiguredPreroll env.hasPrimary s1 else (s1, [])
    (pre.1, Action.emitManifest positions :: pre.2)

def initM (env : Env) (s0 : AdsState) : MState × List Action :=
  let p := initAds env s0
  ({ ads := p.1,
     endedArmed := true,
     midrollBound := p.1.configAdBreaks.any (fun b => decide (0 < b.position)) }, p.2)

/-- The lifecycle notifications the scheduler subscribes to in `_addBindings`. -/
inductive PlayerEvent where
  | adManifestLoaded (ps : List Int)
  | adBreakStart
  | adLoaded
  | adStarted
  | adBreakEnd
  | adsCompleted
  | adError (critical : Bool)
  | timeUpdate (paused : Bool) (t : Int)
  | seeked (t : Int)
  | ended
  | playerReset
deriving DecidableEq, Repr

/-- Delivery of one player event to the scheduler's bindings. `TIME_UPDATE`/`SEEKED`
reach the scheduler only when midroll monitoring registered them, `ENDED` only while
its one-shot binding is armed; `PLAYER_RESET` runs `_reset` (`removeAll` then `_init`,
which re-arms every binding). -/
def step (env : Env) (m : MState) : PlayerEvent → MState × List Action
  | .adManifestLoaded ps => ({ m with ads := onAdManifestLoaded ps m.ads }, [])
  | .adBreakStart => ({ m with ads := { m.ads with adBreakActive := true } }, [])
  | .adLoaded => ({ m with ads := { m.ads with adIsLoading := false, adActive := true } }, [])
  | .adStarted => ({ m with ads := { m.ads with adActive := true, adPlayed := true } }, [])
  | .adBreakEnd => ({ m with ads := { m.ads with adBreakActive := false, adActive := false } }, [])
  | .adsCompleted =>
    let p := onAdsCompleted env.controllers m.ads
    ({ m with ads := p.1 }, p.2)
  | .adError c =>
    let p := onAdError env.controllers c m.ads
    ({ m with ads := p.1 }, p.2)
  | .timeUpdate paused t =>
    if m.midrollBound then
      let p := onTimeUpdate env.hasPrimary paused t m.ads
      ({ m with ads := p.1 }, p.2)
    else (m, [])
  | .seeked t =>
    if m.midrollBound then ({ m with ads := onSeeked t m.ads }, []) else (m, [])
  | .ended =>
    if m.endedArmed then
      let p := onEnded env m.ads
      ({ m with ads := p.1, endedArmed := false }, p.2)
    else (m, [])
  | .playerReset => initM env m.ads

/-- Delivery of a sequence of player events, accumulating the action trace. -/
def runSched (env : Env) (m : MState) : List PlayerEvent → MState × List Action
  | [] => (m, [])
  | e :: es =>
    let p := step env m e
    let q := runSched env p.1 es
    (q.1, p.2 ++ q.2)

/-- The eligibility test the specification describes for midroll dispatch: not yet
played, positioned at or before the current time, strictly beyond snapback. -/
def dueBreak (snap t : Int) (b : CfgBreak) : Bool :=
  !b.played && decide (b.position ≤ t) && decide (snap < b.position)

/-- The snapback-reset condition as the specification words it: the first played break
past the new time exists, is not the first configured break, and the break immediately
preceding it is not played. Defined by direct recursion over the ordered break list,
for comparison with the code's `findIndex`-based handler. -/
def specSeekResetAux (t : Int) (prev : CfgBreak) : List CfgBreak → Bool
  | [] => false
  | b :: bs =>
    if b.played && decide (t < b.position) then !prev.played
    else specSeekResetAux t b bs

def specSeekReset (t : Int) : List CfgBreak → Bool
  | [] => false
  | b :: bs =>
    if b.played && decide (t < b.position) then false
    else specSeekResetAux t b bs


/-! ## Lemmas about the binding registry -/

theorem EMState.eq_of_fields {s t : EMState} (h1 : s.nextId = t.nextId)
    (h2 : s.bmap = t.bmap) (h3 : s.detachLog = t.detachLog) : s = t := by
  cases s; cases t; simp_all

theorem bindingUnlisten_bmap (s : EMState) (b : EMBinding) :
    (bindingUnlisten s b).bmap = s.bmap := by
  unfold bindingUnlisten; split <;> rfl

theorem bindingUnlisten_nextId (s : EMState) (b : EMBinding) :
    (bindingUnlisten s b).nextId = s.nextId := by
  unfold bindingUnlisten; split <;> rfl

theorem bindingUnlisten_of_not_mem {s : EMState} {b : EMBinding} (h : b.bid ∉ s.detachLog) :
    bindingUnlisten s b = { s with detachLog := s.detachLog ++ [b.bid] } := by
  unfold bindingUnlisten; split
  · exact absurd (by assumption) h
  · rfl

theorem foldl_bindingUnlisten_spec :
    ∀ (l : List EMBinding) (s : EMState),
      (l.map (·.bid)).Nodup → (∀ b ∈ l, b.bid ∉ s.detachLog) →
      (List.foldl bindingUnlisten s l).detachLog = s.detachLog ++ l.map (·.bid) ∧
      (List.foldl bindingUnlisten s l).bmap = s.bmap ∧
      (List.foldl bindingUnlisten s l).nextId = s.nextId
  | [], s, _, _ => by simp
  | b :: bs, s, hn, hd => by
    have hb : b.bid ∉ s.detachLog := hd b (by simp)
    have hstep : bindingUnlisten s b = { s with detachLog := s.detachLog ++ [b.bid] } :=
      bindingUnlisten_of_not_mem hb
    have hn' : (bs.map (·.bid)).Nodup := (List.nodup_cons.mp hn).2
    have hbid : b.bid ∉ bs.map (·.bid) := (List.nodup_cons.mp hn).1
    have hd' : ∀ c ∈ bs, c.bid ∉ s.detachLog ++ [b.bid] := by
      intro c hc
      simp only [List.mem_append, List.mem_singleton]
      rintro (h | h)
      · exact hd c (by simp [hc]) h
      · exact hbid (h ▸ List.mem_map_of_mem (·.bid) hc)
    have ih := foldl_bindingUnlisten_spec bs { s with detachLog := s.detachLog ++ [b.bid] } hn' hd'
    simp only [List.foldl_cons, hstep]
    refine ⟨?_, ih.2.1, ih.2.2⟩
    rw [ih.1]; simp

theorem removeAll_bmap (s : EMState) : (s.removeAll).bmap = [] := rfl

theorem removeAll_idem (s : EMState) : s.removeAll.removeAll = s.removeAll := by
  have h : s.removeAll.bmap = [] := rfl
  apply EMState.eq_of_fields
  · show (List.foldl bindingUnlisten s.removeAll s.removeAll.bmap).nextId = s.removeAll.nextId
    rw [h]; rfl
  · rfl
  · show (List.foldl bindingUnlisten s.removeAll s.removeAll.bmap).detachLog = s.removeAll.detachLog
    rw [h]; rfl


theorem unlistenLoop_spec (target : Nat) :
    ∀ (l : List EMBinding) (s : EMState),
      (l.map (·.bid)).Nodup → (∀ b ∈ l, b ∈ s.bmap) →
      (s.bmap.map (·.bid)).Nodup → (∀ b ∈ s.bmap, b.bid ∉ s.detachLog) →
      (unlistenLoop target l s).bmap
          = s.bmap.filter (fun c => !(decide (c ∈ l) && c.target == target)) ∧
      (unlistenLoop target l s).detachLog
          = s.detachLog ++ (l.filter (fun b => b.target == target)).map (·.bid) ∧
      (unlistenLoop target l s).nextId = s.nextId
  | [], s, _, _, _, _ => by
    simp [unlistenLoop]
  | b :: bs, s, hn, hsub, hmn, hdis => by
    have hbmem : b ∈ s.bmap := hsub b (by simp)
    have hnbs : (bs.map (·.bid)).Nodup := (List.nodup_cons.mp hn).2
    have hbbid : b.bid ∉ bs.map (·.bid) := (List.nodup_cons.mp hn).1
    by_cases hbt : b.target = target
    · have hblog : b.bid ∉ s.detachLog := hdis b hbmem
      have hstep : bindingUnlisten s b = { s with detachLog := s.detachLog ++ [b.bid] } :=
        bindingUnlisten_of_not_mem hblog
      have hsub' : ∀ c ∈ bs,
          c ∈ s.bmap.filter (fun c => !(c == b)) := by
        intro c hc
        have hcs : c ∈ s.bmap := hsub c (by simp [hc])
        have hcb : c ≠ b := by
          intro h
          exact hbbid (h ▸ List.mem_map_of_mem (·.bid) hc)
        exact List.mem_filter.mpr ⟨hcs, by simp [hcb]⟩
      have hmn' : ((s.bmap.filter (fun c => !(c == b))).map (·.bid)).Nodup :=
        List.Nodup.sublist (List.Sublist.map (fun x => x.bid) (List.filter_sublist s.bmap)) hmn
      have hdis' : ∀ c ∈ s.bmap.filter (fun c => !(c == b)),
          c.bid ∉ s.detachLog ++ [b.bid] := by
        intro c hc
        have hc1 : c ∈ s.bmap := (List.mem_filter.mp hc).1
        have hc2 : ¬(c == b) = true := by
          have := (List.mem_filter.mp hc).2
          simp at this
          simp [this]
        simp only [List.mem_append, List.mem_singleton]
        rintro (h | h)
        · exact hdis c hc1 h
        · exact hc2 (by simp [List.inj_on_of_nodup_map hmn hc1 hbmem h])
      obtain ⟨ih1, ih2, ih3⟩ := unlistenLoop_spec target bs
        { s with detachLog := s.detachLog ++ [b.bid],
                 bmap := s.bmap.filter (fun c => !(c == b)) }
        hnbs hsub' hmn' hdis'
      have hred : unlistenLoop target (b :: bs) s
          = unlistenLoop target bs
            { s with detachLog := s.detachLog ++ [b.bid],
                     bmap := s.bmap.filter (fun c => !(c == b)) } := by
        simp [unlistenLoop, hbt, hstep]
      rw [hred]
      refine ⟨?_, ?_, ih3⟩
      · rw [ih1]
        show (s.bmap.filter (fun c => !(c == b))).filter _ = _
        rw [List.filter_filter]
        apply List.filter_congr
        intro c hc
        by_cases hcb : c = b
        · subst hcb
          simp [hbt]
        · simp [hcb]
      · rw [ih2]
        show (s.detachLog ++ [b.bid]) ++ _ = _
        rw [List.append_assoc]
        congr 1
        have : (b :: bs).filter (fun x => x.target == target)
            = b :: bs.filter (fun x => x.target == target) := by
          simp [List.filter_cons, hbt]
        rw [this]
        rfl
    · have hred : unlistenLoop target (b :: bs) s = unlistenLoop target bs s := by
        simp [unlistenLoop, hbt]
      rw [hred]
      obtain ⟨ih1, ih2, ih3⟩ := unlistenLoop_spec target bs s hnbs
        (fun c hc => hsub c (by simp [hc])) hmn hdis
      refine ⟨?_, ?_, ih3⟩
      · rw [ih1]
        apply List.filter_congr
        intro c hc
        by_cases hcb : c = b
        · subst hcb
          simp [hbt]
        · simp [hcb]
      · rw [ih2]
        congr 2
        simp [List.filter_cons, hbt]

theorem unlisten_spec (s : EMState) (target : Nat) (etype : String) (h : EMInv s) :
    (s.unlisten target etype).bmap
        = s.bmap.filter (fun b => !(b.target == target && b.etype == etype)) ∧
    (s.unlisten target etype).detachLog
        = s.detachLog
            ++ (s.bmap.filter (fun b => b.target == target && b.etype == etype)).map (·.bid) ∧
    (s.unlisten target etype).nextId = s.nextId := by
  obtain ⟨hmn, hln, hdis, _, _, _⟩ := h
  have hsubn : ((s.bmap.filter (fun b => b.etype == etype)).map (·.bid)).Nodup :=
    List.Nodup.sublist (List.Sublist.map (fun x => x.bid) (List.filter_sublist s.bmap)) hmn
  obtain ⟨h1, h2, h3⟩ := unlistenLoop_spec target (s.bmap.filter (fun b => b.etype == etype)) s
    hsubn (fun b hb => (List.mem_filter.mp hb).1) hmn (fun b hb => hdis b hb)
  unfold EMState.unlisten
  refine ⟨?_, ?_, h3⟩
  · rw [h1]
    apply List.filter_congr
    intro c hc
    by_cases hce : c.etype = etype
    · have : c ∈ s.bmap.filter (fun b => b.etype == etype) :=
        List.mem_filter.mpr ⟨hc, by simp [hce]⟩
      simp [this, hce, Bool.and_comm]
    · have : c ∉ s.bmap.filter (fun b => b.etype == etype) := by
        intro hmem
        exact hce (by simpa using (List.mem_filter.mp hmem).2)
      simp [this, hce]
  · rw [h2]
    have hff : (s.bmap.filter (fun b => b.etype == etype)).filter (fun b => b.target == target)
        = s.bmap.filter (fun b => b.target == target && b.etype == etype) := by
      rw [List.filter_filter]
    rw [hff]

theorem EMInv_initEM : EMInv initEM := by decide

theorem EMInv_listen (s : EMState) (t : Nat) (e : String) (l : Nat) (h : EMInv s) :
    EMInv (s.listen t e l) := by
  obtain ⟨hmn, hln, hdis, hblt, hllt, hcomp⟩ := h
  have hb : (s.listen t e l).bmap = s.bmap ++ [⟨s.nextId, t, e, l⟩] := rfl
  have hd : (s.listen t e l).detachLog = s.detachLog := rfl
  have hx : (s.listen t e l).nextId = s.nextId + 1 := rfl
  unfold EMInv
  rw [hb, hd, hx]
  refine ⟨?_, hln, ?_, ?_, ?_, ?_⟩
  · rw [List.map_append]
    refine List.Nodup.append hmn (by simp) ?_
    intro a ha hb
    simp only [List.map_cons, List.map_nil, List.mem_singleton] at hb
    subst hb
    obtain ⟨b, hbm, hbe⟩ := List.mem_map.mp ha
    exact absurd (hbe ▸ hblt b hbm) (lt_irrefl _)
  · intro b hb
    rcases List.mem_append.mp hb with hb | hb
    · exact hdis b hb
    · simp only [List.mem_singleton] at hb
      subst hb
      intro hmem
      exact absurd (hllt _ hmem) (lt_irrefl _)
  · intro b hb
    rcases List.mem_append.mp hb with hb | hb
    · exact Nat.lt_succ_of_lt (hblt b hb)
    · simp only [List.mem_singleton] at hb
      subst hb
      exact Nat.lt_succ_self _
  · exact fun i hi => Nat.lt_succ_of_lt (hllt i hi)
  · intro i hi
    rcases Nat.lt_succ_iff_lt_or_eq.mp hi with hi | hi
    · rcases hcomp i hi with ⟨b, hbm, hbe⟩ | hil
      · exact Or.inl ⟨b, List.mem_append.mpr (Or.inl hbm), hbe⟩
      · exact Or.inr hil
    · exact Or.inl ⟨⟨s.nextId, t, e, l⟩, List.mem_append.mpr (Or.inr (by simp)), hi.symm⟩

theorem EMInv_unlisten (s : EMState) (target : Nat) (etype : String) (h : EMInv s) :
    EMInv (s.unlisten target etype) := by
  obtain ⟨h1, h2, h3⟩ := unlisten_spec s target etype h
  obtain ⟨hmn, hln, hdis, hblt, hllt, hcomp⟩ := h
  have hmatchn : ((s.bmap.filter (fun b => b.target == target && b.etype == etype)).map (·.bid)).Nodup :=
    List.Nodup.sublist (List.Sublist.map (fun x => x.bid) (List.filter_sublist s.bmap)) hmn
  unfold EMInv
  refine ⟨?_, ?_, ?_, ?_, ?_, ?_⟩
  · rw [h1]
    exact List.Nodup.sublist (List.Sublist.map (fun x => x.bid) (List.filter_sublist s.bmap)) hmn
  · rw [h2]
    refine List.Nodup.append hln hmatchn ?_
    intro a ha hb
    obtain ⟨b, hbm, hbe⟩ := List.mem_map.mp hb
    exact hdis b (List.mem_filter.mp hbm).1 (hbe ▸ ha)
  · rw [h1, h2]
    intro b hb
    have hbm : b ∈ s.bmap := (List.mem_filter.mp hb).1
    have hbp : ¬(b.target == target && b.etype == etype) = true := by
      have := (List.mem_filter.mp hb).2
      simp only [Bool.not_eq_true'] at this
      simp [this]
    intro hmem
    rcases List.mem_append.mp hmem with hm | hm
    · exact hdis b hbm hm
    · obtain ⟨c, hcm, hce⟩ := List.mem_map.mp hm
      have hcb : c = b :=
        List.inj_on_of_nodup_map hmn (List.mem_filter.mp hcm).1 hbm hce
      exact hbp (hcb ▸ (List.mem_filter.mp hcm).2)
  · rw [h1, h3]
    intro b hb
    exact hblt b (List.mem_filter.mp hb).1
  · rw [h2, h3]
    intro i hi
    rcases List.mem_append.mp hi with hm | hm
    · exact hllt i hm
    · obtain ⟨c, hcm, hce⟩ := List.mem_map.mp hm
      exact hce ▸ hblt c (List.mem_filter.mp hcm).1
  · rw [h1, h2, h3]
    intro i hi
    rcases hcomp i hi with ⟨b, hbm, hbe⟩ | hil
    · by_cases hbp : (b.target == target && b.etype == etype) = true
      · refine Or.inr (List.mem_append.mpr (Or.inr ?_))
        exact hbe ▸ List.mem_map_of_mem (·.bid) (List.mem_filter.mpr ⟨hbm, hbp⟩)
      · refine Or.inl ⟨b, List.mem_filter.mpr ⟨hbm, ?_⟩, hbe⟩
        simp only [Bool.not_eq_true] at hbp
        simp [hbp]
    · exact Or.inr (List.mem_append.mpr (Or.inl hil))

theorem EMInv_applyOp (s : EMState) (op : EMOp) (h : EMInv s) : EMInv (s.applyOp op) := by
  cases op with
  | listen t e l => exact EMInv_listen s t e l h
  | unlisten t e => exact EMInv_unlisten s t e h

theorem EMInv_foldl : ∀ (ops : List EMOp) (s : EMState), EMInv s → EMInv (ops.foldl EMState.applyOp s)
  | [], _, h => h
  | op :: ops, s, h => EMInv_foldl ops (s.applyOp op) (EMInv_applyOp s op h)

theorem EMInv_runEM (ops : List EMOp) : EMInv (runEM ops) :=
  EMInv_foldl ops initEM EMInv_initEM

/-- Claim C7: for every sequence of `listen`/`unlisten` calls, after `removeAll()` the
registry's binding map is empty, every listener that was ever attached (every id handed
out below `nextId`) appears exactly once in the log of actual detach calls — so none is
detached twice and none is left attached — and `removeAll` is idempotent. -/
theorem C7_removeAll_detaches_once (ops : List EMOp) :
    ((runEM ops).removeAll).bmap = [] ∧
    (∀ i, i < (runEM ops).nextId → ((runEM ops).removeAll).detachLog.count i = 1) ∧
    ((runEM ops).removeAll).removeAll = (runEM ops).removeAll := by
  obtain ⟨hmn, hln, hdis, hblt, hllt, hcomp⟩ := EMInv_runEM ops
  refine ⟨removeAll_bmap _, ?_, removeAll_idem _⟩
  intro i hi
  have hfold := foldl_bindingUnlisten_spec (runEM ops).bmap (runEM ops) hmn
    (fun b hb => hdis b hb)
  have hlog : ((runEM ops).removeAll).detachLog
      = (runEM ops).detachLog ++ (runEM ops).bmap.map (·.bid) := hfold.1
  rw [hlog, List.count_append]
  rcases hcomp i hi with ⟨b, hbm, hbe⟩ | hil
  · have h0 : (runEM ops).detachLog.count i = 0 :=
      List.count_eq_zero_of_not_mem (hbe ▸ hdis b hbm)
    have h1 : ((runEM ops).bmap.map (·.bid)).count i = 1 :=
      List.count_eq_one_of_mem hmn (hbe ▸ List.mem_map_of_mem (·.bid) hbm)
    rw [h0, h1]
  · have h1 : (runEM ops).detachLog.count i = 1 := List.count_eq_one_of_mem hln hil
    have h0 : ((runEM ops).bmap.map (·.bid)).count i = 0 := by
      apply List.count_eq_zero_of_not_mem
      intro hmem
      obtain ⟨b, hbm, hbe⟩ := List.mem_map.mp hmem
      exact hdis b hbm (hbe ▸ hil)
    rw [h0, h1]

/-- Witness for C7 at the concrete call sequence
`listen(1,"x",7); listen(1,"x",8); unlisten(5,"y"); listen(2,"x",9)`. -/
theorem C7_removeAll_witness :
    ((runEM [EMOp.listen 1 "x" 7, EMOp.listen 1 "x" 8, EMOp.unlisten 5 "y",
        EMOp.listen 2 "x" 9]).removeAll).bmap = [] ∧
    ((runEM [EMOp.listen 1 "x" 7, EMOp.listen 1 "x" 8, EMOp.unlisten 5 "y",
        EMOp.listen 2 "x" 9]).removeAll).detachLog.count 0 = 1 ∧
    ((runEM [EMOp.listen 1 "x" 7, EMOp.listen 1 "x" 8, EMOp.unlisten 5 "y",
        EMOp.listen 2 "x" 9]).removeAll).removeAll
      = (runEM [EMOp.listen 1 "x" 7, EMOp.listen 1 "x" 8, EMOp.unlisten 5 "y",
        EMOp.listen 2 "x" 9]).removeAll := by
  obtain ⟨ha, hb, hc⟩ := C7_removeAll_detaches_once
    [EMOp.listen 1 "x" 7, EMOp.listen 1 "x" 8, EMOp.unlisten 5 "y", EMOp.listen 2 "x" 9]
  exact ⟨ha, hb 0 (by decide), hc⟩

/-- Claim C8: on every well-formed registry state, `unlisten(source, eventType)`
removes from the map every stored binding whose target and event type both match
(several matching bindings included), appends exactly one actual detach call for each
of them to the log, changes nothing else, and is a no-op when none match. -/
theorem C8_unlisten_matching (s : EMState) (target : Nat) (etype : String) (h : EMInv s) :
    (s.unlisten target etype).bmap
        = s.bmap.filter (fun b => !(b.target == target && b.etype == etype)) ∧
    (s.unlisten target etype).detachLog
        = s.detachLog
            ++ (s.bmap.filter (fun b => b.target == target && b.etype == etype)).map (·.bid) ∧
    (s.unlisten target etype).nextId = s.nextId ∧
    ((∀ b ∈ s.bmap, ¬(b.target = target ∧ b.etype = etype)) → s.unlisten target etype = s) := by
  obtain ⟨h1, h2, h3⟩ := unlisten_spec s target etype h
  refine ⟨h1, h2, h3, ?_⟩
  intro hnone
  apply EMState.eq_of_fields h3
  · rw [h1]
    apply List.filter_eq_self.mpr
    intro b hb
    have := hnone b hb
    by_cases hct : b.target = target <;> by_cases hce : b.etype = etype <;>
      simp_all
  · rw [h2]
    have hnil : s.bmap.filter (fun b => b.target == target && b.etype == etype) = [] := by
      apply List.filter_eq_nil_iff.mpr
      intro b hb
      have := hnone b hb
      by_cases hct : b.target = target <;> by_cases hce : b.etype = etype <;>
        simp_all
    rw [hnil]
    simp

/-- Witness for C8 on a registry holding two bindings matching `(1, "x")` and one that
does not. -/
theorem C8_unlisten_witness :
    ((runEM [EMOp.listen 1 "x" 7, EMOp.listen 1 "x" 8, EMOp.listen 2 "x" 9]).unlisten 1 "x").bmap
        = (runEM [EMOp.listen 1 "x" 7, EMOp.listen 1 "x" 8, EMOp.listen 2 "x" 9]).bmap.filter
            (fun b => !(b.target == 1 && b.etype == "x")) ∧
    ((runEM [EMOp.listen 1 "x" 7, EMOp.listen 1 "x" 8, EMOp.listen 2 "x" 9]).unlisten 1 "x").detachLog
        = (runEM [EMOp.listen 1 "x" 7, EMOp.listen 1 "x" 8, EMOp.listen 2 "x" 9]).detachLog
            ++ ((runEM [EMOp.listen 1 "x" 7, EMOp.listen 1 "x" 8, EMOp.listen 2 "x" 9]).bmap.filter
                (fun b => b.target == 1 && b.etype == "x")).map (·.bid) ∧
    ((runEM [EMOp.listen 1 "x" 7, EMOp.listen 1 "x" 8, EMOp.listen 2 "x" 9]).unlisten 1 "x").nextId
        = (runEM [EMOp.listen 1 "x" 7, EMOp.listen 1 "x" 8, EMOp.listen 2 "x" 9]).nextId ∧
    ((∀ b ∈ (runEM [EMOp.listen 1 "x" 7, EMOp.listen 1 "x" 8, EMOp.listen 2 "x" 9]).bmap,
        ¬(b.target = 1 ∧ b.etype = "x")) →
      (runEM [EMOp.listen 1 "x" 7, EMOp.listen 1 "x" 8, EMOp.listen 2 "x" 9]).unlisten 1 "x"
        = runEM [EMOp.listen 1 "x" 7, EMOp.listen 1 "x" 8, EMOp.listen 2 "x" 9]) :=
  C8_unlisten_matching (runEM [EMOp.listen 1 "x" 7, EMOp.listen 1 "x" 8, EMOp.listen 2 "x" 9])
    1 "x" (by decide)

/-! ## Lemmas about the ad scheduler -/

theorem jsFindIndex_lt_length (p : α → Bool) :
    ∀ (l : List α) (j : Nat), jsFindIndex p l = some j → j < l.length
  | [], j, h => by simp [jsFindIndex] at h
  | a :: l, j, h => by
    by_cases hpa : p a = true
    · simp only [jsFindIndex, hpa, if_true, Option.some.injEq] at h
      subst h
      simp
    · cases hfi : jsFindIndex p l with
      | none =>
        rw [jsFindIndex, if_neg hpa, hfi] at h
        simp at h
      | some k =>
        rw [jsFindIndex, if_neg hpa, hfi] at h
        simp only [Option.map_some', Option.some.injEq] at h
        have := jsFindIndex_lt_length p l k hfi
        simp only [List.length_cons]
        omega

theorem getD_indep (l : List α) (n : Nat) (d d' : α) (h : n < l.length) :
    l.getD n d = l.getD n d' := by
  rw [List.getD_eq_get? l n d, List.getD_eq_get? l n d', List.get?_eq_get h]
  rfl

theorem specSeekResetAux_of_none (t : Int) :
    ∀ (bs : List CfgBreak) (prev : CfgBreak),
      jsFindIndex (fun b => b.played && decide (t < b.position)) bs = none →
      specSeekResetAux t prev bs = false
  | [], prev, _ => rfl
  | b :: bs, prev, h => by
    by_cases hpb : (b.played && decide (t < b.position)) = true
    · rw [jsFindIndex, if_pos hpb] at h
      exact absurd h (by simp)
    · rw [jsFindIndex, if_neg hpb] at h
      rw [specSeekResetAux, if_neg hpb]
      exact specSeekResetAux_of_none t bs b (by
        cases hfi : jsFindIndex (fun b => b.played && decide (t < b.position)) bs with
        | none => rfl
        | some k => rw [hfi] at h; exact absurd h (by simp))

theorem specSeekResetAux_of_some (t : Int) :
    ∀ (bs : List CfgBreak) (prev : CfgBreak) (j : Nat),
      jsFindIndex (fun b => b.played && decide (t < b.position)) bs = some j →
      specSeekResetAux t prev bs = !((prev :: bs).getD j prev).played
  | [], _, j, h => by simp [jsFindIndex] at h
  | b :: bs, prev, j, h => by
    by_cases hpb : (b.played && decide (t < b.position)) = true
    · rw [jsFindIndex, if_pos hpb] at h
      simp only [Option.some.injEq] at h
      subst h
      rw [specSeekResetAux, if_pos hpb]
      rfl
    · rw [jsFindIndex, if_neg hpb] at h
      cases hfi : jsFindIndex (fun b => b.played && decide (t < b.position)) bs with
      | none => rw [hfi] at h; exact absurd h (by simp)
      | some k =>
        rw [hfi] at h
        simp only [Option.map_some', Option.some.injEq] at h
        subst h
        have hk := jsFindIndex_lt_length _ bs k hfi
        have ih := specSeekResetAux_of_some t bs b k hfi
        rw [specSeekResetAux, if_neg hpb, ih]
        have h1 : (prev :: b :: bs).getD (k + 1) prev = (b :: bs).getD k prev := rfl
        rw [h1, getD_indep (b :: bs) k b prev (by simp only [List.length_cons]; omega)]

/-- Claim C3: the seeked handler resets `snapback` to `0` exactly when the first played
configured break past the new current time exists, is not the first break of the
ordered list, and the break immediately preceding it is not played; otherwise the state
is untouched. -/
theorem C3_seeked_snapback (t : Int) (s : AdsState) :
    onSeeked t s =
      (if specSeekReset t s.configAdBreaks then { s with snapback := 0 } else s) := by
  rcases hl : s.configAdBreaks with _ | ⟨b, bs⟩
  · simp [onSeeked, specSeekReset, hl, jsFindIndex]
  · by_cases hpb : (b.played && decide (t < b.position)) = true
    · simp [onSeeked, specSeekReset, hl, jsFindIndex, hpb]
    · have hrhs : specSeekReset t (b :: bs) = specSeekResetAux t b bs := by
        rw [specSeekReset, if_neg hpb]
      cases hfi : jsFindIndex (fun x => x.played && decide (t < x.position)) bs with
      | none =>
        have haux := specSeekResetAux_of_none t bs b hfi
        have hcons : jsFindIndex (fun x => x.played && decide (t < x.position)) (b :: bs)
            = none := by
          rw [jsFindIndex, if_neg hpb, hfi]
          rfl
        unfold onSeeked
        rw [hl, hcons, hrhs, haux]
        simp
      | some j =>
        have hj := jsFindIndex_lt_length _ bs j hfi
        have haux := specSeekResetAux_of_some t bs b j hfi
        have hcons : jsFindIndex (fun x => x.played && decide (t < x.position)) (b :: bs)
            = some (j + 1) := by
          rw [jsFindIndex, if_neg hpb, hfi]
          rfl
        have hjlen : j < (b :: bs).length := by
          simp only [List.length_cons]
          omega
        have hq0 : (b :: bs).get? j = some ((b :: bs).get ⟨j, hjlen⟩) :=
          List.get?_eq_get hjlen
        have hgd : (b :: bs).getD j b = (b :: bs).get ⟨j, hjlen⟩ := by
          rw [List.getD_eq_get? (b :: bs) j b, hq0]
          rfl
        rw [hgd] at haux
        unfold onSeeked
        rw [hl, hcons, hrhs, haux]
        simp only [Nat.zero_lt_succ, if_true, Nat.add_sub_cancel, hq0]
        cases hplayed : ((b :: bs).get ⟨j, hjlen⟩).played <;> simp [hplayed]

theorem mem_orderedInsertB (le : α → α → Bool) (a x : α) :
    ∀ (l : List α), x ∈ orderedInsertB le a l ↔ x = a ∨ x ∈ l
  | [] => by simp [orderedInsertB]
  | b :: l => by
    rw [orderedInsertB]
    split
    · simp [List.mem_cons]
    · rw [List.mem_cons, mem_orderedInsertB le a x l, List.mem_cons]
      tauto

theorem pairwise_orderedInsertB (le : α → α → Bool)
    (htot : ∀ x y, le x y = false → le y x = true)
    (htrans : ∀ x y z, le x y = true → le y z = true → le x z = true) (a : α) :
    ∀ (l : List α), l.Pairwise (fun x y => le x y = true) →
      (orderedInsertB le a l).Pairwise (fun x y => le x y = true)
  | [], _ => List.Pairwise.cons (by simp) List.Pairwise.nil
  | b :: l, hp => by
    rw [orderedInsertB]
    by_cases hab : le a b = true
    · rw [if_pos hab]
      refine List.Pairwise.cons ?_ hp
      intro x hx
      rcases List.mem_cons.mp hx with rfl | hx
      · exact hab
      · exact htrans a b x hab (List.rel_of_pairwise_cons hp hx)
    · rw [if_neg hab]
      have hba : le b a = true := htot a b (by simpa using hab)
      have hp' := pairwise_orderedInsertB le htot htrans a l (List.Pairwise.of_cons hp)
      refine List.Pairwise.cons ?_ hp'
      intro x hx
      rcases (mem_orderedInsertB le a x l).mp hx with rfl | hx
      · exact hba
      · exact List.rel_of_pairwise_cons hp hx

theorem pairwise_insertionSortB (le : α → α → Bool)
    (htot : ∀ x y, le x y = false → le y x = true)
    (htrans : ∀ x y z, le x y = true → le y z = true → le x z = true) :
    ∀ (l : List α), (insertionSortB le l).Pairwise (fun x y => le x y = true)
  | [] => List.Pairwise.nil
  | a :: l =>
    pairwise_orderedInsertB le htot htrans a _ (pairwise_insertionSortB le htot htrans l)

theorem mem_insertionSortB (le : α → α → Bool) (x : α) :
    ∀ (l : List α), x ∈ insertionSortB le l ↔ x ∈ l
  | [] => Iff.rfl
  | a :: l => by
    rw [insertionSortB, mem_orderedInsertB, mem_insertionSortB le x l, List.mem_cons]

theorem assignIdx_map_position :
    ∀ (i : Nat) (l : List CfgBreak), (assignIdx i l).map (·.position) = l.map (·.position)
  | _, [] => rfl
  | i, b :: l => by
    simp only [assignIdx, List.map_cons, assignIdx_map_position (i + 1) l]

theorem mem_assignIdx :
    ∀ (i : Nat) (l : List CfgBreak) (b : CfgBreak), b ∈ assignIdx i l →
      ∃ c ∈ l, b.position = c.position ∧ b.played = c.played
  | i, c :: l, b, h => by
    rcases List.mem_cons.mp h with rfl | h
    · exact ⟨c, by simp, rfl, rfl⟩
    · obtain ⟨d, hd, h1, h2⟩ := mem_assignIdx (i + 1) l b h
      exact ⟨d, by simp [hd], h1, h2⟩

/-- Claim C4: for every ingested configuration, the configured ad break list is sorted
ascending by position, and each break's `played` flag is pre-computed as true exactly
when its position lies in `[0, playAdsAfterTime]`. -/
theorem C4_ingest_sorted_preplayed (T : Int) (raw : List RawBreak) :
    ((mkCfgBreaks T raw).map (·.position)).Pairwise (· ≤ ·) ∧
    ∀ b ∈ mkCfgBreaks T raw,
      b.played = (decide (0 ≤ b.position) && decide (b.position ≤ T)) := by
  have htot : ∀ x y : CfgBreak,
      (fun a b : CfgBreak => decide (a.position ≤ b.position)) x y = false →
      (fun a b : CfgBreak => decide (a.position ≤ b.position)) y x = true := by
    intro x y h
    simp only [decide_eq_false_iff_not, not_le] at h
    simp [le_of_lt h]
  have htrans : ∀ x y z : CfgBreak,
      (fun a b : CfgBreak => decide (a.position ≤ b.position)) x y = true →
      (fun a b : CfgBreak => decide (a.position ≤ b.position)) y z = true →
      (fun a b : CfgBreak => decide (a.position ≤ b.position)) x z = true := by
    intro x y z h1 h2
    simp only [decide_eq_true_eq] at h1 h2
    simp [le_trans h1 h2]
  constructor
  · rw [mkCfgBreaks, assignIdx_map_position]
    rw [List.pairwise_map]
    refine List.Pairwise.imp ?_
      (pairwise_insertionSortB (fun a b : CfgBreak => decide (a.position ≤ b.position))
        htot htrans _)
    intro a b h
    simpa using h
  · intro b hb
    rw [mkCfgBreaks] at hb
    obtain ⟨c, hc, hpos, hplayed⟩ := mem_assignIdx 0 _ b hb
    rw [mem_insertionSortB] at hc
    obtain ⟨r, _, hr⟩ := List.mem_map.mp hc
    have hcp : c.played = (decide (-1 < c.position) && decide (c.position ≤ T)) := by
      rw [← hr]
    rw [hplayed, hpos, hcp]
    have hiff : (-1 < c.position) ↔ (0 ≤ c.position) := by omega
    rw [decide_eq_decide.mpr hiff]

/-- Witness for C4 at the spec's example: breaks at positions 0, 10, 20, -1 with
`playAdsAfterTime = 5`; the break at position 0 sits at index 1 of the sorted list and
is pre-played. -/
theorem C4_ingest_witness :
    ((mkCfgBreaks 5 [⟨some 0, 1⟩, ⟨some 10, 1⟩, ⟨some 20, 1⟩,
        ⟨some (-1), 1⟩]).map (·.position)).Pairwise (· ≤ ·) ∧
    (⟨1, 0, 1, true⟩ : CfgBreak).played
      = (decide (0 ≤ (⟨1, 0, 1, true⟩ : CfgBreak).position) &&
          decide ((⟨1, 0, 1, true⟩ : CfgBreak).position ≤ 5)) := by
  obtain ⟨h1, h2⟩ := C4_ingest_sorted_preplayed 5
    [⟨some 0, 1⟩, ⟨some 10, 1⟩, ⟨some 20, 1⟩, ⟨some (-1), 1⟩]
  exact ⟨h1, h2 ⟨1, 0, 1, true⟩ (by decide)⟩

theorem pairwise_le_getLast :
    ∀ (l : List CfgBreak) (h : l ≠ []),
      l.Pairwise (fun a b => a.position ≤ b.position) →
      ∀ c ∈ l, c.position ≤ (l.getLast h).position
  | [], h, _, _, _ => absurd rfl h
  | [a], _, _, c, hc => by
    simp only [List.mem_singleton] at hc
    subst hc
    exact le_refl _
  | a :: b :: t, _, hp, c, hc => by
    have hne : (b :: t) ≠ [] := List.cons_ne_nil b t
    rw [List.getLast_cons hne]
    rcases List.mem_cons.mp hc with rfl | hc
    · exact List.rel_of_pairwise_cons hp (List.getLast_mem hne)
    · exact pairwise_le_getLast (b :: t) hne (List.Pairwise.of_cons hp) c hc

/-- Claim C2: on a time-progress notification while not paused, when some unplayed
configured break is due (position at or before the current time and strictly beyond
snapback), the one with the greatest position fires: `snapback` becomes its position,
exactly that break is marked played, it is dispatched, and every other configured
break survives unchanged. -/
theorem C2_midroll_greatest_due (hasPrimary paused : Bool) (t : Int) (s : AdsState)
    (hp : paused = false) (hc : hasPrimary = true) (hsnap : 0 ≤ s.snapback)
    (hsorted : s.configAdBreaks.Pairwise (fun a b => a.position ≤ b.position))
    (hne : s.configAdBreaks.filter (dueBreak s.snapback t) ≠ []) :
    ∃ b ∈ s.configAdBreaks.filter (dueBreak s.snapback t),
      (∀ c ∈ s.configAdBreaks.filter (dueBreak s.snapback t), c.position ≤ b.position) ∧
      onTimeUpdate hasPrimary paused t s =
        ({ s with
            snapback := b.position,
            configAdBreaks := s.configAdBreaks.map
              (fun c => if c.idx == b.idx then { c with played := true } else c),
            adIsLoading := true },
         [Action.playBreak b.position]) ∧
      ∀ c ∈ s.configAdBreaks, c.idx ≠ b.idx →
        c ∈ (onTimeUpdate hasPrimary paused t s).1.configAdBreaks := by
  subst hp hc
  obtain ⟨b0, hb0⟩ := List.exists_mem_of_ne_nil _ hne
  have hb0' := List.mem_filter.mp hb0
  have ht0 : (t == 0) = false := by
    have hd := hb0'.2
    unfold dueBreak at hd
    simp only [Bool.and_eq_true, decide_eq_true_eq] at hd
    simp only [beq_eq_false_iff_ne, ne_eq]
    omega
  have hfeq : s.configAdBreaks.filter
      (fun b => !b.played && !(t == 0) && decide (b.position ≤ t)
        && decide (s.snapback < b.position))
      = s.configAdBreaks.filter (dueBreak s.snapback t) := by
    apply List.filter_congr
    intro c _
    unfold dueBreak
    rw [ht0]
    simp only [Bool.not_false, Bool.true_and, Bool.and_assoc]
  have hLb := List.getLast_mem hne
  have hpairL : (s.configAdBreaks.filter (dueBreak s.snapback t)).Pairwise
      (fun a b => a.position ≤ b.position) :=
    List.Pairwise.sublist (List.filter_sublist _) hsorted
  have heq : onTimeUpdate true false t s =
      ({ s with
          snapback := ((s.configAdBreaks.filter (dueBreak s.snapback t)).getLast hne).position,
          configAdBreaks := s.configAdBreaks.map
            (fun c =>
              if c.idx == ((s.configAdBreaks.filter (dueBreak s.snapback t)).getLast hne).idx
              then { c with played := true } else c),
          adIsLoading := true },
       [Action.playBreak
          ((s.configAdBreaks.filter (dueBreak s.snapback t)).getLast hne).position]) := by
    unfold onTimeUpdate
    rw [if_neg (by simp), hfeq, List.getLast?_eq_getLast _ hne]
    rfl
  refine ⟨(s.configAdBreaks.filter (dueBreak s.snapback t)).getLast hne,
    hLb, fun c hcm => pairwise_le_getLast _ hne hpairL c hcm, heq, ?_⟩
  intro c hcm hcidx
  rw [heq]
  refine List.mem_map.mpr ⟨c, hcm, ?_⟩
  have hb : (c.idx == ((s.configAdBreaks.filter (dueBreak s.snapback t)).getLast hne).idx)
      = false := beq_eq_false_iff_ne.mpr hcidx
  rw [hb]
  simp

/-- Witness for C2 at the spec's example: unplayed breaks at positions 5 and 15,
current time jumping to 20 — only the break at 15 fires and `snapback` becomes 15. -/
theorem C2_midroll_witness :
    ∃ b ∈ ({ initialAdsState with
        configAdBreaks := [⟨0, 5, 1, false⟩, ⟨1, 15, 1, false⟩] } :
          AdsState).configAdBreaks.filter (dueBreak 0 20),
      (∀ c ∈ ({ initialAdsState with
          configAdBreaks := [⟨0, 5, 1, false⟩, ⟨1, 15, 1, false⟩] } :
            AdsState).configAdBreaks.filter (dueBreak 0 20), c.position ≤ b.position) ∧
      onTimeUpdate true false 20
          { initialAdsState with configAdBreaks := [⟨0, 5, 1, false⟩, ⟨1, 15, 1, false⟩] } =
        ({ ({ initialAdsState with
              configAdBreaks := [⟨0, 5, 1, false⟩, ⟨1, 15, 1, false⟩] } : AdsState) with
            snapback := b.position,
            configAdBreaks := ({ initialAdsState with
              configAdBreaks := [⟨0, 5, 1, false⟩, ⟨1, 15, 1, false⟩] } :
                AdsState).configAdBreaks.map
              (fun c => if c.idx == b.idx then { c with played := true } else c),
            adIsLoading := true },
         [Action.playBreak b.position]) ∧
      ∀ c ∈ ({ initialAdsState with
          configAdBreaks := [⟨0, 5, 1, false⟩, ⟨1, 15, 1, false⟩] } :
            AdsState).configAdBreaks, c.idx ≠ b.idx →
        c ∈ (onTimeUpdate true false 20
            { initialAdsState with
              configAdBreaks := [⟨0, 5, 1, false⟩, ⟨1, 15, 1, false⟩] }).1.configAdBreaks :=
  C2_midroll_greatest_due true false 20
    { initialAdsState with configAdBreaks := [⟨0, 5, 1, false⟩, ⟨1, 15, 1, false⟩] }
    rfl rfl (by decide) (by decide) (by decide)

theorem playAdBreak_allAdsCompleted (h : Bool) (b : CfgBreak) (s : AdsState) :
    (playAdBreak h b s).1.allAdsCompleted = s.allAdsCompleted := by
  unfold playAdBreak
  split <;> rfl

theorem handleConfiguredPreroll_allAdsCompleted (h : Bool) (s : AdsState) :
    (handleConfiguredPreroll h s).1.allAdsCompleted = s.allAdsCompleted := by
  unfold handleConfiguredPreroll
  cases hf : s.configAdBreaks.find? (fun b => b.position == 0 && !b.played) with
  | none => rfl
  | some b => exact playAdBreak_allAdsCompleted h b s

theorem initAds_allAdsCompleted (env : Env) (s0 : AdsState) :
    (initAds env s0).1.allAdsCompleted
      = (mkCfgBreaks (effectiveAfterTime env.playAdsAfterTime env.startTime)
          env.rawBreaks).isEmpty := by
  cases hemp : (mkCfgBreaks (effectiveAfterTime env.playAdsAfterTime env.startTime)
      env.rawBreaks).isEmpty with
  | true =>
    simp only [initAds, hemp, if_true]
    rfl
  | false =>
    simp only [initAds, hemp, Bool.false_eq_true, if_false]
    by_cases hc0 : ((mkCfgBreaks (effectiveAfterTime env.playAdsAfterTime env.startTime)
        env.rawBreaks).map (·.position)).contains 0 = true
    · rw [if_pos hc0, handleConfiguredPreroll_allAdsCompleted]
      rfl
    · rw [if_neg hc0]
      rfl

/-- Claim C1, counterexample: the claimed "if and only if" invariant fails at the
initial state itself. With a single registered controller that is not done and no
configured breaks, `allAdsCompleted` is true right after initialization while not every
controller reports done. -/
theorem C1_counterexample_initial_state :
    ¬(((initM ⟨[⟨"ima", false, false⟩], [], none, 0⟩ initialAdsState).1.ads.allAdsCompleted
          = true) ↔
      (([⟨"ima", false, false⟩] : List Ctrl).all (·.done) = true ∧
        (initM ⟨[⟨"ima", false, false⟩], [], none,
          0⟩ initialAdsState).1.ads.configAdBreaks.all (·.played) = true)) := by
  decide

/-- Claim C1, amended: `allAdsCompleted` is true right after initialization exactly
when no configured ad break was ingested (no manifest known yet); a manifest
notification sets it false; and the ads-completed handler raises it exactly when every
registered controller reports done and every configured break is played, leaving it
unchanged otherwise. The claimed biconditional is not a state invariant (see the
counterexample at the initial state). -/
theorem C1_amended_allAdsCompleted (env : Env) (s0 : AdsState) (ps : List Int)
    (s : AdsState) (ctrls : List Ctrl) :
    (initM env s0).1.ads.allAdsCompleted
        = (mkCfgBreaks (effectiveAfterTime env.playAdsAfterTime env.startTime)
            env.rawBreaks).isEmpty ∧
    (onAdManifestLoaded ps s).allAdsCompleted = false ∧
    (onAdsCompleted ctrls s).1.allAdsCompleted
        = ((ctrls.all (·.done) && s.configAdBreaks.all (·.played)) || s.allAdsCompleted) := by
  refine ⟨initAds_allAdsCompleted env s0, rfl, ?_⟩
  unfold onAdsCompleted
  by_cases hcond : (ctrls.all (·.done) && s.configAdBreaks.all (·.played)) = true
  · simp [hcond]
  · simp only [Bool.not_eq_true] at hcond
    simp [hcond]

/-- Claim C9, evaluation at the spec's own example: merging positions `-1, 2, 10` into
an empty layout and reading `getAdBreaksLayout` yields `[-1, 10, 2]` — the
comparator-less `Array.prototype.sort` orders numbers by their string form — not the
numerically ascending `[-1, 2, 10]` the specification states. -/
theorem C9_layout_lexicographic_sort :
    getAdBreaksLayout (onAdManifestLoaded [-1, 2, 10] initialAdsState) = [-1, 10, 2] ∧
    getAdBreaksLayout (onAdManifestLoaded [-1, 2, 10] initialAdsState) ≠ [-1, 2, 10] := by
  constructor
  · rfl
  · decide

theorem onEnded_of_loading (env : Env) (s : AdsState) (h : s.adIsLoading = true) :
    onEnded env s = (s, []) := by
  unfold onEnded
  rw [if_pos h]

theorem playAdBreak_all_played (h : Bool) (b : CfgBreak) (s : AdsState)
    (hall : s.configAdBreaks.all (·.played) = true) :
    (playAdBreak h b s).1.configAdBreaks.all (·.played) = true := by
  unfold playAdBreak
  split
  · simp only [List.all_eq_true, List.mem_map] at hall ⊢
    rintro x ⟨c, hc, rfl⟩
    split
    · rfl
    · exact hall c hc
  · exact hall

theorem handleConfiguredPostroll_all_played (s : AdsState) (b : CfgBreak)
    (hf : s.configAdBreaks.find? (fun b => !b.played && b.position == -1) = some b) :
    (handleConfiguredPostroll true s).1.configAdBreaks.all (·.played) = true := by
  have hs1 : ({ s with
      configAdBreaks := (s.configAdBreaks.map (fun c => { c with played := true })) } :
        AdsState).configAdBreaks.all (·.played) = true := by
    simp only [List.all_eq_true, List.mem_map]
    rintro x ⟨c, _, rfl⟩
    rfl
  unfold handleConfiguredPostroll
  rw [hf]
  exact playAdBreak_all_played true b _ hs1

/-- Claim C5: whenever the ended handler dispatches a postroll break, its action trace
is exactly the bumper's finish request and resolution (absent when no bumper is
registered), then the primary's finish request and resolution, then the dispatch — so
the bumper finish fully resolves before the primary finish is requested, which fully
resolves before the postroll dispatch — and at that dispatch every configured break has
been marked played. -/
theorem C5_postroll_order (env : Env) (s : AdsState)
    (h : ∃ p, Action.playBreak p ∈ (onEnded env s).2) :
    ∃ p, (onEnded env s).2 =
        (if env.hasBumper
          then [Action.requestEnded Role.bumper, Action.endedResolved Role.bumper]
          else [])
          ++ [Action.requestEnded Role.primary, Action.endedResolved Role.primary,
              Action.playBreak p] ∧
      (onEnded env s).1.configAdBreaks.all (·.played) = true := by
  obtain ⟨p0, hp0⟩ := h
  cases hload : s.adIsLoading with
  | true =>
    rw [onEnded_of_loading env s hload] at hp0
    exact absurd hp0 (by simp)
  | false =>
    cases hlay : s.adBreaksLayout.contains (-1) with
    | false =>
      have : onEnded env s = ({ s with allAdsCompleted := true }, []) := by
        unfold onEnded
        rw [if_neg (by rw [hload]; exact Bool.false_ne_true), if_pos (by rw [hlay]; rfl)]
      rw [this] at hp0
      exact absurd hp0 (by simp)
    | true =>
      cases hprim : env.hasPrimary with
      | false =>
        have : (onEnded env s).2 =
            (if env.hasBumper
              then [Action.requestEnded Role.bumper, Action.endedResolved Role.bumper]
              else []) := by
          unfold onEnded
          rw [if_neg (by rw [hload]; exact Bool.false_ne_true),
            if_neg (by rw [hlay]; simp), if_neg (by rw [hprim]; exact Bool.false_ne_true)]
        rw [this] at hp0
        split at hp0 <;> simp at hp0
      | true =>
        cases hf : s.configAdBreaks.find? (fun b => !b.played && b.position == -1) with
        | none =>
          have : onEnded env s =
              (s, (if env.hasBumper
                  then [Action.requestEnded Role.bumper, Action.endedResolved Role.bumper]
                  else [])
                ++ [Action.requestEnded Role.primary, Action.endedResolved Role.primary]) := by
            unfold onEnded
            rw [if_neg (by rw [hload]; exact Bool.false_ne_true),
              if_neg (by rw [hlay]; simp), if_pos hprim]
            unfold handleConfiguredPostroll
            rw [hf, hprim]
          rw [this] at hp0
          rcases List.mem_append.mp hp0 with hm | hm
          · split at hm <;> simp at hm
          · simp at hm
        | some b =>
          have heq : onEnded env s =
              ((playAdBreak true b
                  { s with configAdBreaks :=
                      s.configAdBreaks.map (fun c => { c with played := true }) }).1,
                (if env.hasBumper
                  then [Action.requestEnded Role.bumper, Action.endedResolved Role.bumper]
                  else [])
                ++ [Action.requestEnded Role.primary, Action.endedResolved Role.primary,
                    Action.playBreak b.position]) := by
            unfold onEnded
            rw [if_neg (by rw [hload]; exact Bool.false_ne_true),
              if_neg (by rw [hlay]; simp), if_pos hprim, hprim]
            unfold handleConfiguredPostroll
            rw [hf]
            rfl
          refine ⟨b.position, ?_, ?_⟩
          · rw [heq]
          · have hall := handleConfiguredPostroll_all_played s b hf
            have h1 : (onEnded env s).1 = (handleConfiguredPostroll true s).1 := by
              rw [heq]
              unfold handleConfiguredPostroll
              rw [hf]
            rw [h1]
            exact hall

/-- Witness for C5: a bumper and a primary controller, layout containing `-1`, one
unplayed postroll break. -/
theorem C5_postroll_witness :
    ∃ p, (onEnded ⟨[⟨"bumper", false, false⟩, ⟨"ima", false, false⟩], [], none, 0⟩
        { initialAdsState with
          adBreaksLayout := [-1],
          configAdBreaks := [⟨0, -1, 1, false⟩] }).2 =
        (if (⟨[⟨"bumper", false, false⟩, ⟨"ima", false, false⟩], [], none, 0⟩ : Env).hasBumper
          then [Action.requestEnded Role.bumper, Action.endedResolved Role.bumper]
          else [])
          ++ [Action.requestEnded Role.primary, Action.endedResolved Role.primary,
              Action.playBreak p] ∧
      (onEnded ⟨[⟨"bumper", false, false⟩, ⟨"ima", false, false⟩], [], none, 0⟩
        { initialAdsState with
          adBreaksLayout := [-1],
          configAdBreaks := [⟨0, -1, 1, false⟩] }).1.configAdBreaks.all (·.played) = true :=
  C5_postroll_order ⟨[⟨"bumper", false, false⟩, ⟨"ima", false, false⟩], [], none, 0⟩
    { initialAdsState with adBreaksLayout := [-1], configAdBreaks := [⟨0, -1, 1, false⟩] }
    ⟨-1, by decide⟩

theorem requestEnded_not_mem_playAdBreak (r : Role) (h : Bool) (b : CfgBreak)
    (s : AdsState) : Action.requestEnded r ∉ (playAdBreak h b s).2 := by
  unfold playAdBreak
  split <;> simp

theorem requestEnded_not_mem_preroll (r : Role) (h : Bool) (s : AdsState) :
    Action.requestEnded r ∉ (handleConfiguredPreroll h s).2 := by
  unfold handleConfiguredPreroll
  cases hf : s.configAdBreaks.find? (fun b => b.position == 0 && !b.played) with
  | none => simp
  | some b => exact requestEnded_not_mem_playAdBreak r h b s

theorem requestEnded_not_mem_initAds (r : Role) (env : Env) (s0 : AdsState) :
    Action.requestEnded r ∉ (initAds env s0).2 := by
  simp only [initAds]
  split
  · simp
  · split
    · intro hmem
      rcases List.mem_cons.mp hmem with h | h
      · exact absurd h (by simp)
      · exact requestEnded_not_mem_preroll r env.hasPrimary _ h
    · simp

theorem requestEnded_not_mem_onTimeUpdate (r : Role) (h paused : Bool) (t : Int)
    (s : AdsState) : Action.requestEnded r ∉ (onTimeUpdate h paused t s).2 := by
  unfold onTimeUpdate
  split
  · simp
  · split
    · exact requestEnded_not_mem_playAdBreak r h _ _
    · simp

theorem requestEnded_not_mem_onAdsCompleted (r : Role) (ctrls : List Ctrl)
    (s : AdsState) : Action.requestEnded r ∉ (onAdsCompleted ctrls s).2 := by
  unfold onAdsCompleted
  split <;> simp

theorem requestEnded_not_mem_onAdError (r : Role) (ctrls : List Ctrl) (c : Bool)
    (s : AdsState) : Action.requestEnded r ∉ (onAdError ctrls c s).2 := by
  simp only [onAdError]
  split
  · split <;> simp
  · simp

/-- Claim C6: a finish request to a controller (the entry into postroll handling) can
be emitted only by delivery of the media-ended notification; when the ended handler
does run while an ad is loading it changes nothing beyond consuming its one-shot
binding; and when it runs with no `-1` in the discovered layout it sets
`allAdsCompleted` immediately and dispatches nothing. -/
theorem C6_postroll_trigger (env : Env) (m : MState) (e : PlayerEvent) :
    (∀ r, Action.requestEnded r ∈ (step env m e).2 → e = PlayerEvent.ended) ∧
    (m.ads.adIsLoading = true →
      step env m PlayerEvent.ended = ({ m with endedArmed := false }, [])) ∧
    (m.endedArmed = true → m.ads.adIsLoading = false →
      m.ads.adBreaksLayout.contains (-1) = false →
      step env m PlayerEvent.ended =
        ({ m with ads := { m.ads with allAdsCompleted := true }, endedArmed := false },
         [])) := by
  refine ⟨?_, ?_, ?_⟩
  · intro r hmem
    cases e with
    | adManifestLoaded ps => simp [step] at hmem
    | adBreakStart => simp [step] at hmem
    | adLoaded => simp [step] at hmem
    | adStarted => simp [step] at hmem
    | adBreakEnd => simp [step] at hmem
    | adsCompleted =>
      exact absurd hmem (requestEnded_not_mem_onAdsCompleted r env.controllers m.ads)
    | adError c =>
      exact absurd hmem (requestEnded_not_mem_onAdError r env.controllers c m.ads)
    | timeUpdate paused t =>
      simp only [step] at hmem
      split at hmem
      · exact absurd hmem (requestEnded_not_mem_onTimeUpdate r env.hasPrimary paused t m.ads)
      · simp at hmem
    | seeked t =>
      simp only [step] at hmem
      split at hmem <;> simp at hmem
    | ended => rfl
    | playerReset =>
      exact absurd hmem (requestEnded_not_mem_initAds r env m.ads)
  · intro hload
    cases harm : m.endedArmed with
    | true =>
      unfold step
      rw [if_pos harm, onEnded_of_loading env m.ads hload]
    | false =>
      unfold step
      rw [if_neg (by rw [harm]; exact Bool.false_ne_true)]
      cases m with
      | mk ads ea mb =>
        simp only at harm
        rw [harm]
  · intro harm hload hcont
    unfold step
    rw [if_pos harm]
    have : onEnded env m.ads = ({ m.ads with allAdsCompleted := true }, []) := by
      unfold onEnded
      rw [if_neg (by rw [hload]; exact Bool.false_ne_true), if_pos (by rw [hcont]; rfl)]
    rw [this]

/-- Witness for C6: a machine with the ended binding armed, no ad loading, and a layout
without `-1` (and, for the first part, a seeked event which must not enter postroll
handling). -/
theorem C6_postroll_witness :
    (∀ r, Action.requestEnded r ∈
        (step ⟨[⟨"ima", false, false⟩], [], none, 0⟩
          ⟨{ initialAdsState with adBreaksLayout := [5] }, true, false⟩
          (PlayerEvent.seeked 3)).2 →
      PlayerEvent.seeked 3 = PlayerEvent.ended) ∧
    step ⟨[⟨"ima", false, false⟩], [], none, 0⟩
        ⟨{ initialAdsState with adBreaksLayout := [5] }, true, false⟩ PlayerEvent.ended =
      (⟨{ { initialAdsState with adBreaksLayout := [5] } with allAdsCompleted := true },
        false, false⟩, []) := by
  obtain ⟨h1, _, h3⟩ := C6_postroll_trigger ⟨[⟨"ima", false, false⟩], [], none, 0⟩
    ⟨{ initialAdsState with adBreaksLayout := [5] }, true, false⟩ (PlayerEvent.seeked 3)
  exact ⟨h1, h3 rfl rfl (by decide)⟩

theorem step_ended_unarmed (env : Env) (m : MState) (h : m.endedArmed = false) :
    step env m PlayerEvent.ended = (m, []) := by
  unfold step
  rw [if_neg (by rw [h]; exact Bool.false_ne_true)]

theorem step_preserves_unarmed (env : Env) (m : MState) (e : PlayerEvent)
    (h : m.endedArmed = false) (hne : e ≠ PlayerEvent.playerReset) :
    (step env m e).1.endedArmed = false := by
  cases e with
  | adManifestLoaded ps => exact h
  | adBreakStart => exact h
  | adLoaded => exact h
  | adStarted => exact h
  | adBreakEnd => exact h
  | adsCompleted => exact h
  | adError c => exact h
  | timeUpdate paused t =>
    simp only [step]
    split
    · exact h
    · exact h
  | seeked t =>
    simp only [step]
    split
    · exact h
    · exact h
  | ended =>
    rw [step_ended_unarmed env m h]
    exact h
  | playerReset => exact absurd rfl hne

theorem runSched_preserves_unarmed (env : Env) :
    ∀ (es : List PlayerEvent) (m : MState), m.endedArmed = false →
      PlayerEvent.playerReset ∉ es → (runSched env m es).1.endedArmed = false
  | [], _, h, _ => h
  | e :: es, m, h, hmem =>
    runSched_preserves_unarmed env es (step env m e).1
      (step_preserves_unarmed env m e h (by intro he; exact hmem (by simp [he])))
      (by intro hm; exact hmem (by simp [hm]))

theorem runSched_append (env : Env) :
    ∀ (es es' : List PlayerEvent) (m : MState),
      runSched env m (es ++ es')
        = ((runSched env (runSched env m es).1 es').1,
           (runSched env m es).2 ++ (runSched env (runSched env m es).1 es').2)
  | [], es', m => by simp [runSched]
  | e :: es, es', m => by
    simp only [List.cons_append, runSched]
    rw [show (es.append es') = es ++ es' from rfl,
      runSched_append env es es' (step env m e).1]
    simp [List.append_assoc]

/-- Claim C10: the `ENDED` subscription is one-shot. Delivering an ended notification
always leaves the binding disarmed (even when `adIsLoading` made the handler bail out),
and once disarmed, appending another ended notification after any reset-free event
sequence changes neither the scheduler state nor the emitted actions — postroll
handling and `allAdsCompleted` cannot be triggered by a later ended until a reset
re-arms the binding. -/
theorem C10_ended_oneshot (env : Env) (m m' : MState) (es : List PlayerEvent)
    (h1 : m.endedArmed = false) (h2 : PlayerEvent.playerReset ∉ es) :
    (step env m' PlayerEvent.ended).1.endedArmed = false ∧
    runSched env m (es ++ [PlayerEvent.ended]) = runSched env m es := by
  constructor
  · cases harm : m'.endedArmed with
    | true =>
      simp only [step, harm, if_true]
    | false =>
      rw [step_ended_unarmed env m' harm]
      exact harm
  · rw [runSched_append]
    have hm1 : (runSched env m es).1.endedArmed = false :=
      runSched_preserves_unarmed env es m h1 h2
    have hone : runSched env (runSched env m es).1 [PlayerEvent.ended]
        = ((runSched env m es).1, []) := by
      simp only [runSched, step_ended_unarmed env (runSched env m es).1 hm1,
        List.append_nil]
    rw [hone]
    simp

/-- Witness for C10: after a consumed ended binding, a further ended notification after
a reset-free sequence is a complete no-op. -/
theorem C10_ended_oneshot_witness :
    (step ⟨[⟨"ima", false, false⟩], [], none, 0⟩
        ⟨{ initialAdsState with adIsLoading := true }, true, false⟩
        PlayerEvent.ended).1.endedArmed = false ∧
    runSched ⟨[⟨"ima", false, false⟩], [], none, 0⟩ ⟨initialAdsState, false, false⟩
        ([PlayerEvent.timeUpdate false 7, PlayerEvent.adsCompleted] ++ [PlayerEvent.ended])
      = runSched ⟨[⟨"ima", false, false⟩], [], none, 0⟩ ⟨initialAdsState, false, false⟩
          [PlayerEvent.timeUpdate false 7, PlayerEvent.adsCompleted] :=
  C10_ended_oneshot ⟨[⟨"ima", false, false⟩], [], none, 0⟩
    ⟨initialAdsState, false, false⟩
    ⟨{ initialAdsState with adIsLoading := true }, true, false⟩
    [PlayerEvent.timeUpdate false 7, PlayerEvent.adsCompleted]
    rfl (by decide)

/-! ## The midroll dispatch hypotheses hold in every reachable scheduler state -/

/-- The state facts the midroll theorem assumes: `snapback` is non-negative and the
configured break list is sorted ascending by position. -/
def MidrollInv (m : MState) : Prop :=
  0 ≤ m.ads.snapback ∧
  m.ads.configAdBreaks.Pairwise (fun a b => a.position ≤ b.position)

theorem getLast?_mem_list : ∀ (l : List α) (x : α), l.getLast? = some x → x ∈ l
  | [], _, h => by simp at h
  | [a], x, h => by
    simp only [List.getLast?_singleton, Option.some.injEq] at h
    simp [h]
  | a :: b :: t, x, h => by
    rw [List.getLast?_cons_cons] at h
    exact List.mem_cons.mpr (Or.inr (getLast?_mem_list (b :: t) x h))

theorem pairwise_pos_map (f : CfgBreak → CfgBreak)
    (hf : ∀ c, (f c).position = c.position) (l : List CfgBreak)
    (h : l.Pairwise (fun a b => a.position ≤ b.position)) :
    (l.map f).Pairwise (fun a b => a.position ≤ b.position) := by
  rw [List.pairwise_map]
  refine h.imp ?_
  intro a b hab
  rw [hf a, hf b]
  exact hab

theorem assignIdx_pairwise :
    ∀ (i : Nat) (l : List CfgBreak),
      l.Pairwise (fun a b => a.position ≤ b.position) →
      (assignIdx i l).Pairwise (fun a b => a.position ≤ b.position)
  | _, [], _ => List.Pairwise.nil
  | i, b :: l, h => by
    refine List.Pairwise.cons ?_ (assignIdx_pairwise (i + 1) l (List.Pairwise.of_cons h))
    intro c hc
    obtain ⟨d, hd, hpos, _⟩ := mem_assignIdx (i + 1) l c hc
    rw [hpos]
    exact List.rel_of_pairwise_cons h hd

theorem mkCfgBreaks_sorted (T : Int) (raw : List RawBreak) :
    (mkCfgBreaks T raw).Pairwise (fun a b => a.position ≤ b.position) := by
  have htot : ∀ x y : CfgBreak,
      (fun a b : CfgBreak => decide (a.position ≤ b.position)) x y = false →
      (fun a b : CfgBreak => decide (a.position ≤ b.position)) y x = true := by
    intro x y h
    simp only [decide_eq_false_iff_not, not_le] at h
    simp [le_of_lt h]
  have htrans : ∀ x y z : CfgBreak,
      (fun a b : CfgBreak => decide (a.position ≤ b.position)) x y = true →
      (fun a b : CfgBreak => decide (a.position ≤ b.position)) y z = true →
      (fun a b : CfgBreak => decide (a.position ≤ b.position)) x z = true := by
    intro x y z h1 h2
    simp only [decide_eq_true_eq] at h1 h2
    simp [le_trans h1 h2]
  unfold mkCfgBreaks
  refine assignIdx_pairwise 0 _ ?_
  refine List.Pairwise.imp ?_
    (pairwise_insertionSortB (fun a b : CfgBreak => decide (a.position ≤ b.position))
      htot htrans _)
  intro a b h
  simpa using h

theorem playAdBreak_snapback (h : Bool) (b : CfgBreak) (s : AdsState) :
    (playAdBreak h b s).1.snapback = s.snapback := by
  unfold playAdBreak
  split <;> rfl

theorem playAdBreak_pairwise (h : Bool) (b : CfgBreak) (s : AdsState)
    (hp : s.configAdBreaks.Pairwise (fun a b => a.position ≤ b.position)) :
    (playAdBreak h b s).1.configAdBreaks.Pairwise (fun a b => a.position ≤ b.position) := by
  unfold playAdBreak
  split
  · refine pairwise_pos_map _ ?_ _ hp
    intro c
    split <;> rfl
  · exact hp

theorem handleConfiguredPreroll_snapback (h : Bool) (s : AdsState) :
    (handleConfiguredPreroll h s).1.snapback = s.snapback := by
  unfold handleConfiguredPreroll
  cases hf : s.configAdBreaks.find? (fun b => b.position == 0 && !b.played) with
  | none => rfl
  | some b => exact playAdBreak_snapback h b s

theorem handleConfiguredPreroll_pairwise (h : Bool) (s : AdsState)
    (hp : s.configAdBreaks.Pairwise (fun a b => a.position ≤ b.position)) :
    (handleConfiguredPreroll h s).1.configAdBreaks.Pairwise
      (fun a b => a.position ≤ b.position) := by
  unfold handleConfiguredPreroll
  cases hf : s.configAdBreaks.find? (fun b => b.position == 0 && !b.played) with
  | none => exact hp
  | some b => exact playAdBreak_pairwise h b s hp

theorem handleConfiguredPostroll_snapback (h : Bool) (s : AdsState) :
    (handleConfiguredPostroll h s).1.snapback = s.snapback := by
  unfold handleConfiguredPostroll
  cases hf : s.configAdBreaks.find? (fun b => !b.played && b.position == -1) with
  | none => rfl
  | some b => exact playAdBreak_snapback h b _

theorem handleConfiguredPostroll_pairwise (h : Bool) (s : AdsState)
    (hp : s.configAdBreaks.Pairwise (fun a b => a.position ≤ b.position)) :
    (handleConfiguredPostroll h s).1.configAdBreaks.Pairwise
      (fun a b => a.position ≤ b.position) := by
  unfold handleConfiguredPostroll
  cases hf : s.configAdBreaks.find? (fun b => !b.played && b.position == -1) with
  | none => exact hp
  | some b =>
    refine playAdBreak_pairwise h b _ ?_
    exact pairwise_pos_map (fun c => { c with played := true }) (fun c => rfl)
      s.configAdBreaks hp

theorem onEnded_inv (env : Env) (s : AdsState)
    (hsnap : 0 ≤ s.snapback)
    (hp : s.configAdBreaks.Pairwise (fun a b => a.position ≤ b.position)) :
    0 ≤ (onEnded env s).1.snapback ∧
    (onEnded env s).1.configAdBreaks.Pairwise (fun a b => a.position ≤ b.position) := by
  simp only [onEnded]
  split
  · exact ⟨hsnap, hp⟩
  · split
    · exact ⟨hsnap, hp⟩
    · by_cases hpr : env.hasPrimary = true
      · rw [if_pos hpr]
        constructor
        · show 0 ≤ (handleConfiguredPostroll env.hasPrimary s).1.snapback
          rw [handleConfiguredPostroll_snapback]
          exact hsnap
        · show (handleConfiguredPostroll env.hasPrimary s).1.configAdBreaks.Pairwise
            (fun a b => a.position ≤ b.position)
          exact handleConfiguredPostroll_pairwise env.hasPrimary s hp
      · rw [if_neg hpr]
        exact ⟨hsnap, hp⟩

theorem onSeeked_inv (t : Int) (s : AdsState) (hsnap : 0 ≤ s.snapback) :
    0 ≤ (onSeeked t s).snapback ∧ (onSeeked t s).configAdBreaks = s.configAdBreaks := by
  unfold onSeeked
  cases hfi : jsFindIndex (fun b => b.played && decide (t < b.position)) s.configAdBreaks with
  | none => exact ⟨hsnap, rfl⟩
  | some i =>
    simp only []
    by_cases hi : 0 < i
    · rw [if_pos hi]
      cases hq : s.configAdBreaks.get? (i - 1) with
      | none => exact ⟨hsnap, rfl⟩
      | some prev =>
        simp only []
        by_cases hpl : prev.played = true
        · rw [if_pos hpl]
          exact ⟨hsnap, rfl⟩
        · rw [if_neg hpl]
          exact ⟨le_refl 0, rfl⟩
    · rw [if_neg hi]
      exact ⟨hsnap, rfl⟩

theorem onTimeUpdate_inv (h paused : Bool) (t : Int) (s : AdsState)
    (hsnap : 0 ≤ s.snapback)
    (hp : s.configAdBreaks.Pairwise (fun a b => a.position ≤ b.position)) :
    0 ≤ (onTimeUpdate h paused t s).1.snapback ∧
    (onTimeUpdate h paused t s).1.configAdBreaks.Pairwise
      (fun a b => a.position ≤ b.position) := by
  unfold onTimeUpdate
  split
  · exact ⟨hsnap, hp⟩
  · cases hgl : (s.configAdBreaks.filter
        (fun b => !b.played && !(t == 0) && decide (b.position ≤ t)
          && decide (s.snapback < b.position))).getLast? with
    | none => exact ⟨hsnap, hp⟩
    | some lastB =>
      have hmem := getLast?_mem_list _ lastB hgl
      have hdue := (List.mem_filter.mp hmem).2
      simp only [Bool.and_eq_true, decide_eq_true_eq] at hdue
      constructor
      · rw [playAdBreak_snapback]
        have : s.snapback < lastB.position := hdue.2
        simp only
        omega
      · exact playAdBreak_pairwise h lastB _ hp

theorem initAds_inv (env : Env) (s0 : AdsState) :
    0 ≤ (initAds env s0).1.snapback ∧
    (initAds env s0).1.configAdBreaks.Pairwise (fun a b => a.position ≤ b.position) := by
  have hsorted := mkCfgBreaks_sorted
    (effectiveAfterTime env.playAdsAfterTime env.startTime) env.rawBreaks
  simp only [initAds]
  split
  · exact ⟨le_refl 0, hsorted⟩
  · split
    · rw [handleConfiguredPreroll_snapback]
      exact ⟨le_refl 0, handleConfiguredPreroll_pairwise _ _ hsorted⟩
    · exact ⟨le_refl 0, hsorted⟩

theorem step_preserves_MidrollInv (env : Env) (m : MState) (e : PlayerEvent)
    (h : MidrollInv m) : MidrollInv (step env m e).1 := by
  obtain ⟨hsnap, hp⟩ := h
  cases e with
  | adManifestLoaded ps => exact ⟨hsnap, hp⟩
  | adBreakStart => exact ⟨hsnap, hp⟩
  | adLoaded => exact ⟨hsnap, hp⟩
  | adStarted => exact ⟨hsnap, hp⟩
  | adBreakEnd => exact ⟨hsnap, hp⟩
  | adsCompleted =>
    unfold MidrollInv
    have hads : (step env m PlayerEvent.adsCompleted).1.ads
        = (onAdsCompleted env.controllers m.ads).1 := rfl
    rw [hads]
    unfold onAdsCompleted
    split
    · exact ⟨hsnap, hp⟩
    · exact ⟨hsnap, hp⟩
  | adError c =>
    unfold MidrollInv
    have hads : (step env m (PlayerEvent.adError c)).1.ads
        = (onAdError env.controllers c m.ads).1 := rfl
    rw [hads]
    simp only [onAdError]
    split
    · split
      · exact ⟨hsnap, hp⟩
      · exact ⟨hsnap, hp⟩
    · exact ⟨hsnap, hp⟩
  | timeUpdate paused t =>
    simp only [step]
    split
    · exact onTimeUpdate_inv env.hasPrimary paused t m.ads hsnap hp
    · exact ⟨hsnap, hp⟩
  | seeked t =>
    simp only [step]
    split
    · obtain ⟨h1, h2⟩ := onSeeked_inv t m.ads hsnap
      exact ⟨h1, h2 ▸ hp⟩
    · exact ⟨hsnap, hp⟩
  | ended =>
    simp only [step]
    split
    · exact onEnded_inv env m.ads hsnap hp
    · exact ⟨hsnap, hp⟩
  | playerReset => exact initAds_inv env m.ads

theorem runSched_preserves_MidrollInv (env : Env) :
    ∀ (es : List PlayerEvent) (m : MState), MidrollInv m →
      MidrollInv (runSched env m es).1
  | [], _, h => h
  | e :: es, m, h =>
    runSched_preserves_MidrollInv env es (step env m e).1
      (step_preserves_MidrollInv env m e h)

/-- Every scheduler state reachable from initialization by any event sequence has a
non-negative `snapback` and a position-sorted configured break list — exactly the two
state hypotheses of the midroll dispatch theorem. -/
theorem reachable_MidrollInv (env : Env) (s0 : AdsState) (es : List PlayerEvent) :
    MidrollInv (runSched env (initM env s0).1 es).1 :=
  runSched_preserves_MidrollInv env es (initM env s0).1 (initAds_inv env s0)

end Playkit
